import Mathlib

/-!
Verification of the PyExpand expansion pipeline (`src/main.cpp` together with
the string routines of `src/basic_data_structures/ds.cpp`).

The file is modelled at the byte level: the file contents, directive bodies,
generated interpreter programs and captured interpreter outputs are lists of
characters (`Bytes`).  The external interpreter is modelled as a function
`exec : Bytes → Bytes` mapping the bytes of the temporary program file to the
captured (already accumulated) output bytes.

`DS_ASSERT` failures (possible out-of-bounds slices) are modelled by returning
`none` from the affected operation: the C code either aborts (assertions
enabled) or reads out of bounds (assertions disabled), so no in-bounds result
exists.
-/

/-- Byte strings, modelled as lists of characters. -/
abbrev Bytes := List Char

/-- Convert a Lean string literal to its byte list. -/
def lit (s : String) : Bytes := s.toList

/-- The NUL byte.  `fprintf("%s", ...)` and `Addf("%s", ...)` stop at it. -/
def nulC : Char := Char.ofNat 0

/-- Single-quote byte (used to spell the generated Python error message). -/
def quoteC : Char := Char.ofNat 39

example : lit "ab" = ['a', 'b'] := by decide
example : lit "a\n\r\tb" = ['a', '\n', '\r', '\t', 'b'] := by decide

/-- `memEq pat l`: the first `pat.length` bytes of `l` equal `pat`
(the `memcmp(ptr, other.Data, other.Size) == 0` probe of
`DS_StringView::Find`, `ds.cpp` lines 65-82). -/
def memEq : Bytes → Bytes → Bool
  | [], _ => true
  | _ :: _, [] => false
  | p :: ps, c :: cs => p == c && memEq ps cs

/-- `find0 s pat`: index of the leftmost occurrence of `pat` in `s`, or
`s.length` if there is none.  This is `DS_StringView::Find(pat, 0)`
(`ds.cpp` lines 65-82): the C loop scans `ptr` from `Data` to
`Data + Size - pat.Size` and returns `Size` when the pattern does not fit or
is never found; the structural recursion below computes the same value. -/
def find0 (s pat : Bytes) : Nat :=
  match s with
  | [] => 0
  | c :: rest => if memEq pat (c :: rest) then 0 else 1 + find0 rest pat

/-- `DS_StringView::Find(pat, start_from)` for `start_from ≤ s.length`
(the function's own `DS_ASSERT`; every call site in `main.cpp` satisfies it):
the leftmost occurrence at or after `start_from`, or `s.length`. -/
def dsFindFrom (s pat : Bytes) (start : Nat) : Nat :=
  start + find0 (s.drop start) pat

example : find0 (lit "xx/*y") (lit "/*") = 2 := by decide
example : find0 (lit "xxy") (lit "/*") = 3 := by decide
example : dsFindFrom (lit "ab*/cd*/") (lit "*/") 3 = 6 := by decide

/-! ## Snippet transformer (`main.cpp` lines 67-105) -/

/-- The literal pattern `/*.py` (opening marker). -/
def pyMarker : Bytes := lit "/*.py"

/-- The literal pattern `*/` (body terminator). -/
def endComment : Bytes := lit "*/"

/-- The literal pattern `/*` (directive terminator). -/
def openComment : Bytes := lit "/*"

/-- The literal pattern `return` (multi-statement heuristic). -/
def returnLit : Bytes := lit "return"

/-- `is_multiline` (`main.cpp` line 69): the body contains `return`. -/
def isMultiline (body : Bytes) : Bool :=
  find0 body returnLit != body.length

/-- Number of bytes consumed by one `DS_StringView::Split("\n")` call
(`ds.cpp` lines 101-109): `advance = min(offset + split_by.Size, Size)`. -/
def splitAdvance (l : Bytes) : Nat :=
  min (find0 l (lit "\n") + 1) l.length

/-- Fuel-indexed version of the line-counting loop of the single-expression
branch (`main.cpp` lines 92-98).  The fuel only bounds the recursion depth;
`linesCountAux fuel l` equals the loop's count whenever `l.length ≤ fuel`. -/
def linesCountAux : Nat → Bytes → Nat
  | _, [] => 0
  | 0, _ :: _ => 0
  | fuel + 1, c :: rest =>
      1 + linesCountAux fuel ((c :: rest).drop (splitAdvance (c :: rest)))

/-- `lines_count` of the single-expression branch: one per `Split("\n")`
iteration while bytes remain (empty lines included). -/
def linesCount (l : Bytes) : Nat := linesCountAux l.length l

/-- Strip one trailing CR from a split-off line (`main.cpp` lines 77-78). -/
def stripCR (line : Bytes) : Bytes :=
  if line.getLast? = some '\r' then line.dropLast else line

/-- Emit one body line of the generated `user_fn` (`main.cpp` lines 80-86):
skip empty lines; prepend a TAB when the first byte is neither TAB nor
space; re-append `\n`. -/
def procLine (line : Bytes) : Bytes :=
  match stripCR line with
  | [] => []
  | c :: rest =>
      (if c ≠ '\t' ∧ c ≠ ' ' then ['\t'] else []) ++ (c :: rest) ++ ['\n']

/-- Fuel-indexed version of the multiline body loop
(`main.cpp` lines 73-87). -/
def processLinesAux : Nat → Bytes → Bytes
  | _, [] => []
  | 0, _ :: _ => []
  | fuel + 1, c :: rest =>
      procLine ((c :: rest).take (find0 (c :: rest) (lit "\n"))) ++
        processLinesAux fuel ((c :: rest).drop (splitAdvance (c :: rest)))

/-- The indented body lines of the generated `user_fn`. -/
def processLines (l : Bytes) : Bytes := processLinesAux l.length l

/-- The fixed substituted program of the multi-line-without-return case
(`main.cpp` line 104). -/
def errorProgram : Bytes :=
  lit "print(" ++ [quoteC] ++
    lit "Error: No return statement found in a multiline code block!" ++
    [quoteC] ++ lit ")"

/-- `%s`-style truncation at the first NUL byte: models `fprintf("%s"/"%.*s")`
(`main.cpp` lines 101, 121, 179) and `Addf("%s")` (line 130). -/
def truncAtNul (l : Bytes) : Bytes := l.takeWhile (fun c => c != nulC)

/-- The snippet transformer (`main.cpp` lines 67-105): directive body to
generated program text plus the `is_multiline` flag.  The single-expression
program is built with `Addf("print(%.*s)\n", ...)`, which stops at a NUL
inside the body. -/
def transform (body : Bytes) : Bytes × Bool :=
  if isMultiline body then
    (lit "def user_fn():\n" ++ processLines body ++ lit "print(user_fn())\n",
      true)
  else if linesCount body ≤ 1 then
    (lit "print(" ++ truncAtNul body ++ lit ")\n", false)
  else
    (errorProgram, false)

example : transform (lit "1 + 2") = (lit "print(1 + 2)\n", false) := by decide
example : transform (lit "\n\ta = 10\n\treturn a*2\n") =
    (lit "def user_fn():\n\ta = 10\n\treturn a*2\nprint(user_fn())\n", true) := by
  decide
example : (transform (lit "\nx=1\ny=2\n")).1 = errorProgram := by decide

/-! ## Output normalizer and splicer (`main.cpp` lines 142-146, 151-181) -/

/-- The trailing CR+LF trim (`main.cpp` lines 142-144).  When the captured
output has fewer than two bytes, `Slice(Size - 2)` violates
`DS_ASSERT(from >= 0)` (`ds.cpp` line 114): modelled as `none`. -/
def trimResult (out : Bytes) : Option Bytes :=
  if out.length < 2 then none
  else if out.drop (out.length - 2) = lit "\r\n" then
    some (out.take (out.length - 2))
  else some out

example : trimResult (lit "3\r\n") = some (lit "3") := by decide
example : trimResult (lit "3\n") = some (lit "3\n") := by decide

/-- The indentation-measuring loop (`main.cpp` lines 159-162): number of
leading space/tab bytes of the (trimmed) captured output. -/
def indentLen : Bytes → Nat
  | [] => 0
  | c :: rest => if c ≠ ' ' ∧ c ≠ '\t' then 0 else 1 + indentLen rest

/-- `indent_str` (`main.cpp` line 163): the leading whitespace of the trimmed
captured output when the directive was multiline, else empty. -/
def indentOf (flag : Bool) (out : Bytes) : Bytes :=
  out.take (if flag then indentLen out else 0)

/-- The separator byte (`main.cpp` lines 165, 167). -/
def sepOf (flag : Bool) : Bytes := if flag then ['\n'] else [' ']

/-- Fuel-indexed version of the splicing loop (`main.cpp` lines 154-171):
`i` is the loop index, `acc` the accumulated `result` string.  The fuel is
the number of remaining iterations (`ranges.length` at the initial call). -/
def spliceAux : Nat → List Bytes → List Bytes → List Bool → Nat → Bytes → Bytes
  | 0, _, _, _, _, acc => acc
  | fuel + 1, ranges, outs, flags, i, acc =>
      if i < ranges.length then
        let acc1 :=
          if 0 < i then
            let o := outs.getD (i - 1) []
            let f := flags.getD (i - 1) false
            acc ++ sepOf f ++ o ++ sepOf f ++ indentOf f o
          else acc
        spliceAux fuel ranges outs flags (i + 1) (acc1 ++ ranges.getD i [])
      else acc

/-- The splicer: interleaves kept ranges with formatted expansion results. -/
def splice (ranges outs : List Bytes) (flags : List Bool) : Bytes :=
  spliceAux ranges.length ranges outs flags 0 []

example : splice [lit "A*/", lit "/*B"] [lit "7"] [false] =
    lit "A*/ 7 /*B" := by decide

/-! ## Directive scanner and whole-tool pipeline (`main.cpp` lines 52-110,
112-147, 151-181) -/

/-- Fuel-indexed version of the scanning loop (`main.cpp` lines 52-110).
One iteration: find `/*.py`; if absent, push `remaining` as the tail kept
range and stop.  Otherwise find `*/` from `body_start`; pushing the kept
range `Slice(0, end_comment_offset + 2)` requires
`end_comment_offset + 2 ≤ Size` (`DS_ASSERT(to <= Size)`, `ds.cpp` line 115),
modelled as `none` when violated.  Then find the next `/*` from
`end_comment_offset + 2`, transform the body, and continue on the suffix.
Returns (kept ranges, list of (program text, is_multiline)). -/
def scanAux : Nat → Bytes → Option (List Bytes × List (Bytes × Bool))
  | 0, _ => none
  | fuel + 1, s =>
      let p := find0 s pyMarker
      if p = s.length then some ([s], [])
      else
        let e := dsFindFrom s endComment (p + 5)
        if e + 2 > s.length then none
        else
          let body := (s.take e).drop (p + 5)
          let t := dsFindFrom s openComment (e + 2)
          (scanAux fuel (s.drop t)).bind fun rd =>
            some (s.take (e + 2) :: rd.1, transform body :: rd.2)

/-- The directive scanner. -/
def pyexpandScan (s : Bytes) : Option (List Bytes × List (Bytes × Bool)) :=
  scanAux (s.length + 1) s

/-- Run every generated program (`main.cpp` lines 112-147).  The temporary
file receives `fprintf(f, "%.*s\n", ...)` of the program (NUL-truncating,
plus a trailing newline); `exec` maps those file bytes to the captured
output (stdout then stderr, accumulated); the result is CR+LF-trimmed. -/
def runPrograms (exec : Bytes → Bytes) : List (Bytes × Bool) → Option (List Bytes)
  | [] => some []
  | pf :: rest =>
      (trimResult (exec (truncAtNul pf.1 ++ ['\n']))).bind fun o =>
        (runPrograms exec rest).bind fun os => some (o :: os)

/-- The assembled output bytes of one whole run (before the final
`fprintf("%s")` write): scan, run all programs, splice. -/
def pyexpandAssemble (exec : Bytes → Bytes) (s : Bytes) : Option Bytes :=
  (pyexpandScan s).bind fun rd =>
    (runPrograms exec rd.2).bind fun outs =>
      some (splice rd.1 outs (rd.2.map Prod.snd))

/-- The bytes actually written back to the file: the assembled buffer as a C
string, i.e. truncated at its first NUL (`main.cpp` line 179). -/
def pyexpandTool (exec : Bytes → Bytes) (s : Bytes) : Option Bytes :=
  (pyexpandAssemble exec s).map truncAtNul

/-- The output accumulator of the subprocess driver (`win32_utils.cpp`
lines 61-75 with the callback of `main.cpp` lines 124-131): each pipe chunk
is NUL-terminated and appended with `Addf("%s", chunk)`, which stops at the
first NUL inside the chunk. -/
def accumulateChunks (chunks : List Bytes) : Bytes :=
  chunks.foldl (fun acc c => acc ++ truncAtNul c) []

example : pyexpandTool (fun _ => lit "3\r\n") (lit "a /*.py 1 + 2 */ old /*") =
    some (lit "a /*.py 1 + 2 */ 3 /*") := by decide
example : pyexpandTool (fun _ => lit "xy") (lit "no directives") =
    some (lit "no directives") := by decide
example : pyexpandTool (fun _ => lit "20\r\n")
      (lit "/*.py\n\ta = 10\n\treturn a*2\n*/ stale /*end*/") =
    some (lit "/*.py\n\ta = 10\n\treturn a*2\n*/\n20\n/*end*/") := by decide

/-! ## Elementary facts about `memEq` and `find0` -/

theorem memEq_iff (pat l : Bytes) : memEq pat l = true ↔ ∃ t, l = pat ++ t := by
  induction pat generalizing l with
  | nil => simp [memEq]
  | cons p ps ih =>
    cases l with
    | nil => simp [memEq]
    | cons c cs =>
      simp only [memEq, Bool.and_eq_true, beq_iff_eq, ih, List.cons_append,
        List.cons.injEq]
      constructor
      · rintro ⟨h1, t, h2⟩
        exact ⟨t, h1.symm, h2⟩
      · rintro ⟨t, h1, h2⟩
        exact ⟨h1.symm, t, h2⟩

theorem memEq_length {pat l : Bytes} (h : memEq pat l = true) :
    pat.length ≤ l.length := by
  obtain ⟨t, rfl⟩ := (memEq_iff pat l).mp h
  simp

theorem memEq_append_left {pat a : Bytes} (b : Bytes)
    (h : pat.length ≤ a.length) : memEq pat (a ++ b) = memEq pat a := by
  induction pat generalizing a with
  | nil => cases a <;> simp [memEq]
  | cons p ps ih =>
    cases a with
    | nil => simp at h
    | cons c a2 =>
      simp only [List.length_cons, Nat.add_le_add_iff_right] at h
      simp [memEq, ih h]

theorem find0_le (l pat : Bytes) : find0 l pat ≤ l.length := by
  induction l with
  | nil => simp [find0]
  | cons c rest ih =>
    simp only [find0, List.length_cons]
    split
    · omega
    · omega

theorem find0_nil_pat (l : Bytes) : find0 l [] = 0 := by
  cases l <;> simp [find0, memEq]

theorem find0_found {l pat : Bytes} (h : find0 l pat ≠ l.length) :
    memEq pat (l.drop (find0 l pat)) = true := by
  induction l with
  | nil => simp [find0] at h
  | cons c rest ih =>
    by_cases hm : memEq pat (c :: rest) = true
    · simp [find0, hm]
    · have hf : find0 (c :: rest) pat = 1 + find0 rest pat := by
        simp [find0, hm]
      rw [hf] at h ⊢
      have h2 : find0 rest pat ≠ rest.length := by
        simp only [List.length_cons] at h; omega
      have := ih h2
      simpa [Nat.add_comm 1 (find0 rest pat), List.drop_succ_cons] using this

theorem find0_le_of_memEq {l pat : Bytes} {j : Nat}
    (h : memEq pat (l.drop j) = true) : find0 l pat ≤ j := by
  induction l generalizing j with
  | nil => simp [find0]
  | cons c rest ih =>
    cases j with
    | zero =>
      simp only [List.drop_zero] at h
      simp [find0, h]
    | succ j =>
      simp only [List.drop_succ_cons] at h
      have := ih h
      simp only [find0]
      split
      · omega
      · omega

theorem find0_append_stable {a pat : Bytes} (b : Bytes)
    (h : find0 a pat + pat.length ≤ a.length) :
    find0 (a ++ b) pat = find0 a pat := by
  induction a with
  | nil =>
    simp only [find0, List.length_nil, Nat.zero_add] at h ⊢
    have : pat = [] := List.length_eq_zero.mp (Nat.le_zero.mp h)
    subst this
    simpa using find0_nil_pat b
  | cons c a2 ih =>
    by_cases hm : memEq pat (c :: a2) = true
    · have hlen : pat.length ≤ (c :: a2).length := memEq_length hm
      have hm2 : memEq pat (c :: (a2 ++ b)) = true := by
        have := @memEq_append_left pat (c :: a2) b hlen
        simpa [hm] using this
      simp [find0, hm, hm2]
    · have hf : find0 (c :: a2) pat = 1 + find0 a2 pat := by simp [find0, hm]
      rw [hf] at h ⊢
      have hlen : pat.length ≤ (c :: a2).length := by
        simp only [List.length_cons] at h ⊢; omega
      have hm2 : ¬ memEq pat (c :: (a2 ++ b)) = true := by
        have := @memEq_append_left pat (c :: a2) b hlen
        simpa [hm] using this
      have h2 : find0 a2 pat + pat.length ≤ a2.length := by
        simp only [List.length_cons] at h; omega
      simp [find0, hm2, ih h2]

theorem find0_append_inner {a pat : Bytes} (b : Bytes)
    (h : find0 (a ++ b) pat + pat.length ≤ a.length) :
    find0 a pat = find0 (a ++ b) pat := by
  induction a with
  | nil =>
    simp only [List.length_nil] at h
    have hp : pat = [] := List.length_eq_zero.mp (by omega)
    subst hp
    simp [find0, find0_nil_pat]
  | cons c a2 ih =>
    simp only [List.cons_append] at h ⊢
    by_cases hm : memEq pat (c :: (a2 ++ b)) = true
    · have h0 : find0 (c :: (a2 ++ b)) pat = 0 := by simp [find0, hm]
      rw [h0] at h
      have hm2 : memEq pat (c :: a2) = true := by
        have := @memEq_append_left pat (c :: a2) b (by simpa using h)
        simpa [hm] using this
      simp [find0, hm, hm2]
    · have hf : find0 (c :: (a2 ++ b)) pat = 1 + find0 (a2 ++ b) pat := by
        simp [find0, hm]
      rw [hf] at h ⊢
      have hlen : pat.length ≤ (c :: a2).length := by
        simp only [List.length_cons] at h ⊢; omega
      have hm2 : ¬ memEq pat (c :: a2) = true := by
        have := @memEq_append_left pat (c :: a2) b hlen
        simpa [hm] using this
      have h2 : find0 (a2 ++ b) pat + pat.length ≤ a2.length := by
        simp only [List.length_cons] at h; omega
      simp [find0, hm2, ih h2]

/-! ## Occurrence algebra for the `/*` pattern -/

theorem openComment_eq : openComment = ['/', '*'] := by decide

theorem memEq_openC_iff (l : Bytes) :
    memEq openComment l = true ↔ ∃ t, l = '/' :: '*' :: t := by
  rw [memEq_iff]
  simp [openComment_eq]

theorem find0_no_slash {l : Bytes} (h : ∀ x ∈ l, x ≠ '/') :
    find0 l openComment = l.length := by
  induction l with
  | nil => simp [find0]
  | cons c rest ih =>
    have hm : ¬ memEq openComment (c :: rest) = true := by
      rw [memEq_openC_iff]
      rintro ⟨t, ht⟩
      exact h c (by simp) (by simpa using congrArg (fun x => x.headI) ht)
    have := ih (fun x hx => h x (by simp [hx]))
    simp [find0, hm, this]
    omega

theorem find0_ss_append {a : Bytes} (b : Bytes)
    (ha : find0 a openComment = a.length) (hb : b.head? ≠ some '*') :
    find0 (a ++ b) openComment = a.length + find0 b openComment := by
  induction a with
  | nil => simp
  | cons c a2 ih =>
    have hsplit : ¬ memEq openComment (c :: a2) = true ∧
        find0 a2 openComment = a2.length := by
      by_cases hm : memEq openComment (c :: a2) = true
      · have : find0 (c :: a2) openComment = 0 := by simp [find0, hm]
        rw [this] at ha
        simp at ha
      · have : find0 (c :: a2) openComment = 1 + find0 a2 openComment := by
          simp [find0, hm]
        rw [this] at ha
        simp only [List.length_cons] at ha
        exact ⟨hm, by omega⟩
    obtain ⟨hm, ha2⟩ := hsplit
    have hm2 : ¬ memEq openComment (c :: (a2 ++ b)) = true := by
      rw [memEq_openC_iff]
      rintro ⟨t, ht⟩
      obtain ⟨hc, ht2⟩ : c = '/' ∧ a2 ++ b = '*' :: t := by
        constructor
        · simpa using congrArg (fun x => x.headI) ht
        · simpa using congrArg (fun x => x.tail) ht
      cases a2 with
      | nil =>
        apply hb
        simpa using congrArg (fun x => x.head?) ht2
      | cons d a3 =>
        apply hm
        rw [memEq_openC_iff]
        refine ⟨a3, ?_⟩
        have hd : d = '*' := by simpa using congrArg (fun x => x.headI) ht2
        simp [hc, hd]
    have hstep : find0 (c :: (a2 ++ b)) openComment =
        1 + find0 (a2 ++ b) openComment := by
      simp [find0, hm2]
    calc find0 ((c :: a2) ++ b) openComment
        = find0 (c :: (a2 ++ b)) openComment := by rw [List.cons_append]
      _ = 1 + find0 (a2 ++ b) openComment := hstep
      _ = 1 + (a2.length + find0 b openComment) := by rw [ih ha2]
      _ = (c :: a2).length + find0 b openComment := by
          simp only [List.length_cons]; omega

theorem find0_zero_of_memEq {l pat : Bytes} (h : memEq pat l = true) :
    find0 l pat = 0 := by
  have := @find0_le_of_memEq l pat 0 (by simpa using h)
  omega

/-! ## Whitespace, indentation and NUL-truncation lemmas -/

theorem indentLen_take_eq_takeWhile (l : Bytes) :
    l.take (indentLen l) = l.takeWhile (fun c => c == ' ' || c == '\t') := by
  induction l with
  | nil => simp [indentLen]
  | cons c rest ih =>
    by_cases hc : c ≠ ' ' ∧ c ≠ '\t'
    · have hb : (c == ' ' || c == '\t') = false := by
        cases hc with
        | intro h1 h2 => simp [h1, h2]
      simp [indentLen, hc, List.takeWhile_cons, hb]
    · have hb : (c == ' ' || c == '\t') = true := by
        by_cases h1 : c = ' '
        · simp [h1]
        · have h2 : c = '\t' := by tauto
          simp [h2]
      have hlen : indentLen (c :: rest) = 1 + indentLen rest := by
        simp [indentLen, hc]
      rw [hlen]
      simp only [List.takeWhile_cons, hb, if_true]
      rw [Nat.add_comm 1 (indentLen rest)]
      simp [List.take_succ_cons, ih]

theorem mem_indentOf_ws {f : Bool} {o : Bytes} {x : Char}
    (hx : x ∈ indentOf f o) : x = ' ' ∨ x = '\t' := by
  cases f with
  | false => simp [indentOf] at hx
  | true =>
    simp only [indentOf, if_true] at hx
    rw [indentLen_take_eq_takeWhile] at hx
    have := List.mem_takeWhile_imp hx
    simp only [Bool.or_eq_true, beq_iff_eq] at this
    exact this

theorem truncAtNul_of_not_mem {l : Bytes} (h : nulC ∉ l) : truncAtNul l = l := by
  unfold truncAtNul
  rw [List.takeWhile_eq_self_iff]
  intro x hx
  have : x ≠ nulC := fun he => h (he ▸ hx)
  simpa using this

/-- The formatted expansion chunk `sep ++ out ++ sep ++ indent` contains no
`/*`, provided the trimmed output does not; so the first `/*` of
`sep ++ out ++ sep ++ indent ++ tl` is exactly at the start of `tl`
(or absent when `tl` is empty). -/
theorem find0_chunk (f : Bool) (o0 tl : Bytes)
    (ho : find0 o0 openComment = o0.length)
    (htl : tl = [] ∨ memEq openComment tl = true) :
    find0 (sepOf f ++ o0 ++ sepOf f ++ indentOf f o0 ++ tl) openComment =
      2 + o0.length + (indentOf f o0).length := by
  set sc : Char := if f then '\n' else ' ' with hsc
  have hsep : sepOf f = [sc] := by cases f <;> simp [sepOf, hsc]
  have hcslash : sc ≠ '/' := by cases f <;> simp [hsc]
  set ind := indentOf f o0 with hind
  have hindws : ∀ x ∈ ind, x = ' ' ∨ x = '\t' := fun x hx => mem_indentOf_ws hx
  have hnoslash : ∀ x ∈ ind, x ≠ '/' := by
    intro x hx
    rcases hindws x hx with h | h <;> simp [h]
  have hindtl : find0 (ind ++ tl) openComment = ind.length := by
    rcases htl with rfl | hmem
    · rw [List.append_nil]
      exact find0_no_slash hnoslash
    · have h1 : find0 ind openComment = ind.length := find0_no_slash hnoslash
      have h2 : tl.head? ≠ some '*' := by
        rw [memEq_openC_iff] at hmem
        obtain ⟨t, rfl⟩ := hmem
        simp
      rw [find0_ss_append tl h1 h2, find0_zero_of_memEq hmem]
      omega
  have hnotm : ∀ z : Bytes, ¬ memEq openComment (sc :: z) = true := by
    intro z hm
    rw [memEq_openC_iff] at hm
    obtain ⟨t, ht⟩ := hm
    exact hcslash (by simpa using congrArg (fun x => x.headI) ht)
  have hstep2 : find0 (sc :: (ind ++ tl)) openComment =
      1 + ind.length := by
    simp [find0, hnotm (ind ++ tl), hindtl]
  have hstar : (sc :: (ind ++ tl)).head? ≠ some '*' := by
    cases f <;> simp [hsc]
  have hstep3 : find0 (o0 ++ sc :: (ind ++ tl)) openComment =
      o0.length + (1 + ind.length) := by
    rw [find0_ss_append _ ho hstar, hstep2]
  have hassoc : sepOf f ++ o0 ++ sepOf f ++ ind ++ tl =
      sc :: (o0 ++ sc :: (ind ++ tl)) := by
    rw [hsep]
    simp
  rw [hassoc]
  have hstep4 : find0 (sc :: (o0 ++ sc :: (ind ++ tl))) openComment =
      1 + (o0.length + (1 + ind.length)) := by
    simp [find0, hnotm (o0 ++ sc :: (ind ++ tl)), hstep3]
  rw [hstep4]
  omega

/-! ## Fused form of the pipeline

`fusedAux` interleaves scanning, program execution and splicing in a single
recursion over the input.  It is a proof device: `pyexpandAssemble` is proved
equal to it below, and structural arguments (idempotence) are carried out on
this form. -/

def fusedAux (exec : Bytes → Bytes) : Nat → Bytes → Option Bytes
  | 0, _ => none
  | fuel + 1, s =>
      let p := find0 s pyMarker
      if p = s.length then some s
      else
        let e := dsFindFrom s endComment (p + 5)
        if e + 2 > s.length then none
        else
          let body := (s.take e).drop (p + 5)
          let t := dsFindFrom s openComment (e + 2)
          (trimResult (exec (truncAtNul (transform body).1 ++ ['\n']))).bind
            fun o0 =>
              (fusedAux exec fuel (s.drop t)).bind fun tl =>
                some (s.take (e + 2) ++ sepOf (transform body).2 ++ o0 ++
                  sepOf (transform body).2 ++ indentOf (transform body).2 o0 ++
                  tl)

/-- Single-recursion form of `pyexpandAssemble`. -/
def pyexpandFused (exec : Bytes → Bytes) (s : Bytes) : Option Bytes :=
  fusedAux exec (s.length + 1) s

theorem scanAux_congr :
    ∀ (f g : Nat) (s : Bytes), s.length < f → s.length < g →
      scanAux f s = scanAux g s := by
  intro f
  induction f with
  | zero => intro g s h _; omega
  | succ f ih =>
    intro g s hf hg
    cases g with
    | zero => omega
    | succ g =>
      simp only [scanAux]
      by_cases hp : find0 s pyMarker = s.length
      · simp [hp]
      · by_cases he2 :
          dsFindFrom s endComment (find0 s pyMarker + 5) + 2 > s.length
        · simp [hp, he2]
        · simp only [hp, he2, if_neg, if_false, ite_false]
          have ht : dsFindFrom s endComment (find0 s pyMarker + 5) + 2 ≤
              dsFindFrom s openComment
                (dsFindFrom s endComment (find0 s pyMarker + 5) + 2) :=
            Nat.le_add_right _ _
          have hlen : (s.drop (dsFindFrom s openComment
              (dsFindFrom s endComment (find0 s pyMarker + 5) + 2))).length =
              s.length - dsFindFrom s openComment
                (dsFindFrom s endComment (find0 s pyMarker + 5) + 2) := by
            simp
          rw [ih g _ (by omega) (by omega)]

theorem fusedAux_congr (exec : Bytes → Bytes) :
    ∀ (f g : Nat) (s : Bytes), s.length < f → s.length < g →
      fusedAux exec f s = fusedAux exec g s := by
  intro f
  induction f with
  | zero => intro g s h _; omega
  | succ f ih =>
    intro g s hf hg
    cases g with
    | zero => omega
    | succ g =>
      simp only [fusedAux]
      by_cases hp : find0 s pyMarker = s.length
      · simp [hp]
      · by_cases he2 :
          dsFindFrom s endComment (find0 s pyMarker + 5) + 2 > s.length
        · simp [hp, he2]
        · simp only [hp, he2, if_neg, if_false, ite_false]
          have ht : dsFindFrom s endComment (find0 s pyMarker + 5) + 2 ≤
              dsFindFrom s openComment
                (dsFindFrom s endComment (find0 s pyMarker + 5) + 2) :=
            Nat.le_add_right _ _
          have hlen : (s.drop (dsFindFrom s openComment
              (dsFindFrom s endComment (find0 s pyMarker + 5) + 2))).length =
              s.length - dsFindFrom s openComment
                (dsFindFrom s endComment (find0 s pyMarker + 5) + 2) := by
            simp
          rw [ih g _ (by omega) (by omega)]

theorem pyexpandScan_eq (s : Bytes) :
    pyexpandScan s =
      if find0 s pyMarker = s.length then some ([s], [])
      else if dsFindFrom s endComment (find0 s pyMarker + 5) + 2 > s.length
      then none
      else
        (pyexpandScan (s.drop (dsFindFrom s openComment
            (dsFindFrom s endComment (find0 s pyMarker + 5) + 2)))).bind
          fun rd =>
            some (s.take (dsFindFrom s endComment (find0 s pyMarker + 5) + 2)
                :: rd.1,
              transform ((s.take (dsFindFrom s endComment
                (find0 s pyMarker + 5))).drop (find0 s pyMarker + 5)) ::
                rd.2) := by
  show scanAux (s.length + 1) s = _
  by_cases hp : find0 s pyMarker = s.length
  · simp [scanAux, hp]
  · by_cases he2 : dsFindFrom s endComment (find0 s pyMarker + 5) + 2 > s.length
    · simp [scanAux, hp, he2]
    · simp only [scanAux, hp, he2, if_neg, if_false, ite_false]
      have ht : dsFindFrom s endComment (find0 s pyMarker + 5) + 2 ≤
          dsFindFrom s openComment
            (dsFindFrom s endComment (find0 s pyMarker + 5) + 2) :=
        Nat.le_add_right _ _
      have hlen : (s.drop (dsFindFrom s openComment
          (dsFindFrom s endComment (find0 s pyMarker + 5) + 2))).length =
          s.length - dsFindFrom s openComment
            (dsFindFrom s endComment (find0 s pyMarker + 5) + 2) := by
        simp
      rw [scanAux_congr s.length
        ((s.drop (dsFindFrom s openComment
          (dsFindFrom s endComment (find0 s pyMarker + 5) + 2))).length + 1)
        (s.drop (dsFindFrom s openComment
          (dsFindFrom s endComment (find0 s pyMarker + 5) + 2)))
        (by omega) (by omega)]
      rfl

theorem pyexpandFused_eq (exec : Bytes → Bytes) (s : Bytes) :
    pyexpandFused exec s =
      if find0 s pyMarker = s.length then some s
      else if dsFindFrom s endComment (find0 s pyMarker + 5) + 2 > s.length
      then none
      else
        (trimResult (exec (truncAtNul (transform ((s.take (dsFindFrom s
            endComment (find0 s pyMarker + 5))).drop
            (find0 s pyMarker + 5))).1 ++ ['\n']))).bind fun o0 =>
          (pyexpandFused exec (s.drop (dsFindFrom s openComment
              (dsFindFrom s endComment (find0 s pyMarker + 5) + 2)))).bind
            fun tl =>
              some (s.take (dsFindFrom s endComment (find0 s pyMarker + 5) + 2)
                ++ sepOf (transform ((s.take (dsFindFrom s endComment
                  (find0 s pyMarker + 5))).drop (find0 s pyMarker + 5))).2 ++
                o0 ++
                sepOf (transform ((s.take (dsFindFrom s endComment
                  (find0 s pyMarker + 5))).drop (find0 s pyMarker + 5))).2 ++
                indentOf (transform ((s.take (dsFindFrom s endComment
                  (find0 s pyMarker + 5))).drop (find0 s pyMarker + 5))).2 o0
                ++ tl) := by
  show fusedAux exec (s.length + 1) s = _
  by_cases hp : find0 s pyMarker = s.length
  · simp [fusedAux, hp]
  · by_cases he2 : dsFindFrom s endComment (find0 s pyMarker + 5) + 2 > s.length
    · simp [fusedAux, hp, he2]
    · simp only [fusedAux, hp, he2, if_neg, if_false, ite_false]
      have ht : dsFindFrom s endComment (find0 s pyMarker + 5) + 2 ≤
          dsFindFrom s openComment
            (dsFindFrom s endComment (find0 s pyMarker + 5) + 2) :=
        Nat.le_add_right _ _
      have hlen : (s.drop (dsFindFrom s openComment
          (dsFindFrom s endComment (find0 s pyMarker + 5) + 2))).length =
          s.length - dsFindFrom s openComment
            (dsFindFrom s endComment (find0 s pyMarker + 5) + 2) := by
        simp
      rw [fusedAux_congr exec s.length
        ((s.drop (dsFindFrom s openComment
          (dsFindFrom s endComment (find0 s pyMarker + 5) + 2))).length + 1)
        (s.drop (dsFindFrom s openComment
          (dsFindFrom s endComment (find0 s pyMarker + 5) + 2)))
        (by omega) (by omega)]
      rfl

/-! ## The splicing loop produces the interleaving of the specification -/

/-- The emission rule of the specification, section 4.5: `K0` first, then for
each directive `sep ++ stdout ++ sep ++ indent_prefix ++ K_i`.  This is the
spec-side rendering used to state the claim about the splicer loop. -/
def specInterleave : List Bytes → List Bytes → List Bool → Bytes
  | K :: Ks, o :: os, f :: fs =>
      sepOf f ++ o ++ sepOf f ++ indentOf f o ++ K ++ specInterleave Ks os fs
  | _, _, _ => []

theorem drop_getD_cons {α : Type} (l : List α) (d : α) (j : Nat)
    (h : j < l.length) : l.drop j = l.getD j d :: l.drop (j + 1) := by
  induction l generalizing j with
  | nil => simp at h
  | cons c rest ih =>
    cases j with
    | zero => simp [List.getD]
    | succ j =>
      simp only [List.length_cons, Nat.add_lt_add_iff_right] at h
      simpa [List.getD_cons_succ] using ih j h

theorem spliceAux_interleave :
    ∀ (fuel : Nat) (K0 : Bytes) (Ks outs : List Bytes) (flags : List Bool)
      (j : Nat) (acc : Bytes),
      outs.length = Ks.length → flags.length = Ks.length →
      Ks.length ≤ j + fuel →
      spliceAux fuel (K0 :: Ks) outs flags (j + 1) acc =
        acc ++ specInterleave (Ks.drop j) (outs.drop j) (flags.drop j) := by
  intro fuel
  induction fuel with
  | zero =>
    intro K0 Ks outs flags j acc h1 h2 h3
    have hK : Ks.drop j = [] := List.drop_eq_nil_of_le (by omega)
    simp [spliceAux, hK, specInterleave]
  | succ fuel ih =>
    intro K0 Ks outs flags j acc h1 h2 h3
    by_cases hj : j + 1 < (K0 :: Ks).length
    · have hjK : j < Ks.length := by simpa using hj
      have hjo : j < outs.length := by omega
      have hjf : j < flags.length := by omega
      rw [spliceAux]
      rw [if_pos hj]
      simp only [Nat.succ_sub_one, Nat.zero_lt_succ, if_pos, Nat.add_sub_cancel]
      rw [ih K0 Ks outs flags (j + 1) _ h1 h2 (by omega)]
      rw [drop_getD_cons Ks [] j hjK, drop_getD_cons outs [] j hjo,
        drop_getD_cons flags false j hjf]
      have hKsD : (K0 :: Ks).getD (j + 1) [] = Ks.getD j [] := by
        simp [List.getD_cons_succ]
      rw [hKsD]
      simp [specInterleave, List.append_assoc]
    · have hK : Ks.drop j = [] := by
        apply List.drop_eq_nil_of_le
        simp only [List.length_cons] at hj
        omega
      rw [spliceAux]
      rw [if_neg hj]
      simp [hK, specInterleave]

theorem splice_eq_interleave (K0 : Bytes) (Ks outs : List Bytes)
    (flags : List Bool) (h1 : outs.length = Ks.length)
    (h2 : flags.length = Ks.length) :
    splice (K0 :: Ks) outs flags = K0 ++ specInterleave Ks outs flags := by
  show spliceAux (K0 :: Ks).length (K0 :: Ks) outs flags 0 [] = _
  have hl : (K0 :: Ks).length = Ks.length + 1 := by simp
  rw [hl, spliceAux]
  rw [if_pos (by simp)]
  simp only [Nat.lt_irrefl, if_neg, Nat.zero_lt_succ, List.getD, ite_false,
    Nat.not_lt_zero, List.nil_append]
  have h0 : (0 : Nat) < 0 ↔ False := by simp
  have := spliceAux_interleave Ks.length K0 Ks outs flags 0
    ((if 0 < 0 then [] else []) ++ (K0 :: Ks).getD 0 []) h1 h2 (by omega)
  simp only [List.drop_zero] at this
  simpa [List.getD] using this

theorem splice_single (s : Bytes) : splice [s] [] [] = s := by
  simp [splice, spliceAux, List.getD]

theorem splice_cons (k : Bytes) (rs outs : List Bytes) (flags : List Bool)
    (o : Bytes) (f : Bool) (h1 : outs.length + 1 = rs.length)
    (h2 : flags.length + 1 = rs.length) :
    splice (k :: rs) (o :: outs) (f :: flags) =
      k ++ sepOf f ++ o ++ sepOf f ++ indentOf f o ++ splice rs outs flags := by
  obtain ⟨K1, Ks2, rfl⟩ : ∃ K1 Ks2, rs = K1 :: Ks2 := by
    cases rs with
    | nil => simp at h1
    | cons K1 Ks2 => exact ⟨K1, Ks2, rfl⟩
  have h1b : outs.length = Ks2.length := by simpa using h1
  have h2b : flags.length = Ks2.length := by simpa using h2
  rw [splice_eq_interleave k (K1 :: Ks2) (o :: outs) (f :: flags)
    (by simp [h1b]) (by simp [h2b])]
  rw [splice_eq_interleave K1 Ks2 outs flags h1b h2b]
  rw [specInterleave]
  simp [List.append_assoc]

/-! ## Length invariants of the scanner and the runner -/

theorem pyexpandScan_length :
    ∀ (n : Nat) (s : Bytes), s.length ≤ n →
      ∀ rs ds, pyexpandScan s = some (rs, ds) → rs.length = ds.length + 1 := by
  intro n
  induction n with
  | zero =>
    intro s hs rs ds h
    have hnil : s = [] := by
      cases s with
      | nil => rfl
      | cons c r => simp at hs
    subst hnil
    rw [pyexpandScan_eq] at h
    simp only [find0, List.length_nil, if_pos] at h
    obtain ⟨h1, h2⟩ := by simpa using h
    simp [← h1, ← h2]
  | succ n ih =>
    intro s hs rs ds h
    rw [pyexpandScan_eq] at h
    by_cases hp : find0 s pyMarker = s.length
    · rw [if_pos hp] at h
      obtain ⟨h1, h2⟩ := by simpa using h
      simp [← h1, ← h2]
    · rw [if_neg hp] at h
      by_cases he2 :
          dsFindFrom s endComment (find0 s pyMarker + 5) + 2 > s.length
      · rw [if_pos he2] at h
        simp at h
      · rw [if_neg he2] at h
        obtain ⟨rd, hrd, hsome⟩ := Option.bind_eq_some.mp h
        have ht : dsFindFrom s endComment (find0 s pyMarker + 5) + 2 ≤
            dsFindFrom s openComment
              (dsFindFrom s endComment (find0 s pyMarker + 5) + 2) :=
          Nat.le_add_right _ _
        have hlen : (s.drop (dsFindFrom s openComment
            (dsFindFrom s endComment (find0 s pyMarker + 5) + 2))).length =
            s.length - dsFindFrom s openComment
              (dsFindFrom s endComment (find0 s pyMarker + 5) + 2) := by
          simp
        have hrec := ih (s.drop (dsFindFrom s openComment
            (dsFindFrom s endComment (find0 s pyMarker + 5) + 2)))
          (by omega) rd.1 rd.2 (by simpa using hrd)
        obtain ⟨h1, h2⟩ : (s.take (dsFindFrom s endComment
            (find0 s pyMarker + 5) + 2) :: rd.1) = rs ∧
            (transform ((s.take (dsFindFrom s endComment
              (find0 s pyMarker + 5))).drop (find0 s pyMarker + 5)) :: rd.2) =
              ds := by
          simpa using hsome
        simp [← h1, ← h2, hrec]

theorem runPrograms_length (exec : Bytes → Bytes) :
    ∀ (ds : List (Bytes × Bool)) (os : List Bytes),
      runPrograms exec ds = some os → os.length = ds.length := by
  intro ds
  induction ds with
  | nil =>
    intro os h
    simp only [runPrograms] at h
    obtain rfl := by simpa using h.symm
    simp
  | cons pf rest ih =>
    intro os h
    simp only [runPrograms] at h
    obtain ⟨o, ho, h2⟩ := Option.bind_eq_some.mp h
    obtain ⟨os2, hos2, h3⟩ := Option.bind_eq_some.mp h2
    obtain rfl : o :: os2 = os := by simpa using h3
    simp [ih os2 hos2]

theorem pyexpandScan_eq2 (s : Bytes) (p e t : Nat) (body k rest : Bytes)
    (hp : p = find0 s pyMarker) (he : e = dsFindFrom s endComment (p + 5))
    (ht : t = dsFindFrom s openComment (e + 2))
    (hbody : body = (s.take e).drop (p + 5)) (hk : k = s.take (e + 2))
    (hrest : rest = s.drop t) :
    pyexpandScan s =
      if p = s.length then some ([s], [])
      else if e + 2 > s.length then none
      else (pyexpandScan rest).bind fun rd =>
        some (k :: rd.1, transform body :: rd.2) := by
  subst hp he ht hbody hk hrest
  exact pyexpandScan_eq s

theorem pyexpandFused_eq2 (exec : Bytes → Bytes) (s : Bytes) (p e t : Nat)
    (body k rest : Bytes)
    (hp : p = find0 s pyMarker) (he : e = dsFindFrom s endComment (p + 5))
    (ht : t = dsFindFrom s openComment (e + 2))
    (hbody : body = (s.take e).drop (p + 5)) (hk : k = s.take (e + 2))
    (hrest : rest = s.drop t) :
    pyexpandFused exec s =
      if p = s.length then some s
      else if e + 2 > s.length then none
      else
        (trimResult (exec (truncAtNul (transform body).1 ++ ['\n']))).bind
          fun o0 => (pyexpandFused exec rest).bind fun tl =>
            some (k ++ sepOf (transform body).2 ++ o0 ++
              sepOf (transform body).2 ++ indentOf (transform body).2 o0 ++
              tl) := by
  subst hp he ht hbody hk hrest
  exact pyexpandFused_eq exec s

theorem assemble_eq_fused (exec : Bytes → Bytes) :
    ∀ (n : Nat) (s : Bytes), s.length ≤ n →
      pyexpandAssemble exec s = pyexpandFused exec s := by
  intro n
  induction n with
  | zero =>
    intro s hs
    have hnil : s = [] := by
      cases s with
      | nil => rfl
      | cons c r => simp at hs
    subst hnil
    rfl
  | succ n ih =>
    intro s hs
    obtain ⟨p, hp⟩ : ∃ p, p = find0 s pyMarker := ⟨_, rfl⟩
    obtain ⟨e, he⟩ : ∃ e, e = dsFindFrom s endComment (p + 5) := ⟨_, rfl⟩
    obtain ⟨t, ht⟩ : ∃ t, t = dsFindFrom s openComment (e + 2) := ⟨_, rfl⟩
    obtain ⟨body, hbody⟩ : ∃ b, b = (s.take e).drop (p + 5) := ⟨_, rfl⟩
    obtain ⟨k, hk⟩ : ∃ k, k = s.take (e + 2) := ⟨_, rfl⟩
    obtain ⟨rest, hrest⟩ : ∃ r, r = s.drop t := ⟨_, rfl⟩
    rw [pyexpandFused_eq2 exec s p e t body k rest hp he ht hbody hk hrest]
    by_cases hpm : p = s.length
    · rw [if_pos hpm]
      rw [pyexpandAssemble,
        pyexpandScan_eq2 s p e t body k rest hp he ht hbody hk hrest,
        if_pos hpm]
      simp [runPrograms, splice_single]
    · rw [if_neg hpm]
      by_cases he2 : e + 2 > s.length
      · rw [if_pos he2]
        rw [pyexpandAssemble,
          pyexpandScan_eq2 s p e t body k rest hp he ht hbody hk hrest,
          if_neg hpm, if_pos he2]
        rfl
      · rw [if_neg he2]
        have htge : e + 2 ≤ t := by rw [ht]; exact Nat.le_add_right _ _
        have hlrest : rest.length = s.length - t := by rw [hrest]; simp
        have hIH : pyexpandAssemble exec rest = pyexpandFused exec rest :=
          ih rest (by omega)
        rw [← hIH]
        cases hscan : pyexpandScan rest with
        | none =>
          have hL : pyexpandAssemble exec s = none := by
            rw [pyexpandAssemble,
              pyexpandScan_eq2 s p e t body k rest hp he ht hbody hk hrest,
              if_neg hpm, if_neg he2, hscan]
            rfl
          have hA : pyexpandAssemble exec rest = none := by
            rw [pyexpandAssemble, hscan]
            rfl
          rw [hL, hA]
          cases htr :
              trimResult (exec (truncAtNul (transform body).1 ++ ['\n'])) <;>
            simp [htr]
        | some rd =>
          obtain ⟨rs2, ds2⟩ := rd
          have hscanS : pyexpandScan s =
              some (k :: rs2, transform body :: ds2) := by
            rw [pyexpandScan_eq2 s p e t body k rest hp he ht hbody hk hrest,
              if_neg hpm, if_neg he2, hscan]
            rfl
          cases htr :
              trimResult (exec (truncAtNul (transform body).1 ++ ['\n'])) with
          | none =>
            have hL : pyexpandAssemble exec s = none := by
              rw [pyexpandAssemble, hscanS]
              simp [runPrograms, htr]
            rw [hL]
            simp
          | some o0 =>
            cases hrun : runPrograms exec ds2 with
            | none =>
              have hL : pyexpandAssemble exec s = none := by
                rw [pyexpandAssemble, hscanS]
                simp [runPrograms, htr, hrun]
              have hA : pyexpandAssemble exec rest = none := by
                rw [pyexpandAssemble, hscan]
                simp [hrun]
              rw [hL, hA]
              simp
            | some os =>
              have hA : pyexpandAssemble exec rest =
                  some (splice rs2 os (ds2.map Prod.snd)) := by
                rw [pyexpandAssemble, hscan]
                simp [hrun]
              have hL : pyexpandAssemble exec s =
                  some (splice (k :: rs2) (o0 :: os)
                    ((transform body).2 :: ds2.map Prod.snd)) := by
                rw [pyexpandAssemble, hscanS]
                simp [runPrograms, htr, hrun]
              rw [hL, hA]
              simp only [Option.some_bind]
              congr 1
              have hlen1 : rs2.length = ds2.length + 1 :=
                pyexpandScan_length rest.length rest le_rfl rs2 ds2 hscan
              have hlen2 : os.length = ds2.length :=
                runPrograms_length exec ds2 os hrun
              rw [splice_cons k rs2 os (ds2.map Prod.snd) o0
                (transform body).2 (by simp [hlen1, hlen2])
                (by simp [hlen1])]

/-! ## Support lemmas for idempotence -/

theorem pyMarker_length : pyMarker.length = 5 := by decide

theorem endComment_length : endComment.length = 2 := by decide

/-- A run with a stable, well-behaved interpreter: every program's captured
output trims successfully (raw output has at least two bytes) and the trimmed
output contains neither `/*` nor a NUL byte. -/
def goodExec (exec : Bytes → Bytes) : Prop :=
  ∀ prog : Bytes, ∃ o, trimResult (exec prog) = some o ∧
    find0 o openComment = o.length ∧ nulC ∉ o

theorem restShape (s : Bytes) (start : Nat) (hstart : start ≤ s.length) :
    s.drop (dsFindFrom s openComment start) = [] ∨
      memEq openComment (s.drop (dsFindFrom s openComment start)) = true := by
  by_cases hf : find0 (s.drop start) openComment = (s.drop start).length
  · left
    have : dsFindFrom s openComment start = s.length := by
      rw [dsFindFrom, hf]
      simp
      omega
    rw [this, List.drop_length]
  · right
    have hm := find0_found hf
    have hdd : (s.drop start).drop (find0 (s.drop start) openComment) =
        s.drop (start + find0 (s.drop start) openComment) :=
      List.drop_drop _ _ _
    rw [dsFindFrom, ← hdd]
    exact hm

theorem fusedHead (exec : Bytes → Bytes) (x y : Bytes)
    (hx : x = [] ∨ memEq openComment x = true)
    (h : pyexpandFused exec x = some y) :
    y = [] ∨ memEq openComment y = true := by
  rcases hx with rfl | hmem
  · left
    have : pyexpandFused exec [] = some [] := rfl
    rw [this] at h
    simpa using h.symm
  · rw [pyexpandFused_eq] at h
    by_cases hp : find0 x pyMarker = x.length
    · rw [if_pos hp] at h
      right
      obtain rfl : x = y := by simpa using h
      exact hmem
    · rw [if_neg hp] at h
      by_cases he2 : dsFindFrom x endComment (find0 x pyMarker + 5) + 2 >
          x.length
      · rw [if_pos he2] at h
        simp at h
      · rw [if_neg he2] at h
        obtain ⟨o0, _, h2⟩ := Option.bind_eq_some.mp h
        obtain ⟨tl, _, h3⟩ := Option.bind_eq_some.mp h2
        right
        obtain ⟨t2, rfl⟩ := (memEq_openC_iff x).mp hmem
        obtain rfl : y = ('/' :: '*' :: t2).take
            (dsFindFrom ('/' :: '*' :: t2) endComment
              (find0 ('/' :: '*' :: t2) pyMarker + 5) + 2) ++
            sepOf (transform ((('/' :: '*' :: t2).take (dsFindFrom
              ('/' :: '*' :: t2) endComment (find0 ('/' :: '*' :: t2) pyMarker
              + 5))).drop (find0 ('/' :: '*' :: t2) pyMarker + 5))).2 ++ o0 ++
            sepOf (transform ((('/' :: '*' :: t2).take (dsFindFrom
              ('/' :: '*' :: t2) endComment (find0 ('/' :: '*' :: t2) pyMarker
              + 5))).drop (find0 ('/' :: '*' :: t2) pyMarker + 5))).2 ++
            indentOf (transform ((('/' :: '*' :: t2).take (dsFindFrom
              ('/' :: '*' :: t2) endComment (find0 ('/' :: '*' :: t2) pyMarker
              + 5))).drop (find0 ('/' :: '*' :: t2) pyMarker + 5))).2 o0 ++
            tl := by
          have := h3.symm
          simpa using this
        rw [memEq_openC_iff]
        refine ⟨?_, ?_⟩
        · exact (('/' :: '*' :: t2).take (dsFindFrom ('/' :: '*' :: t2)
            endComment (find0 ('/' :: '*' :: t2) pyMarker + 5) + 2)).drop 2 ++
            (sepOf (transform ((('/' :: '*' :: t2).take (dsFindFrom
              ('/' :: '*' :: t2) endComment (find0 ('/' :: '*' :: t2) pyMarker
              + 5))).drop (find0 ('/' :: '*' :: t2) pyMarker + 5))).2 ++ o0 ++
            sepOf (transform ((('/' :: '*' :: t2).take (dsFindFrom
              ('/' :: '*' :: t2) endComment (find0 ('/' :: '*' :: t2) pyMarker
              + 5))).drop (find0 ('/' :: '*' :: t2) pyMarker + 5))).2 ++
            indentOf (transform ((('/' :: '*' :: t2).take (dsFindFrom
              ('/' :: '*' :: t2) endComment (find0 ('/' :: '*' :: t2) pyMarker
              + 5))).drop (find0 ('/' :: '*' :: t2) pyMarker + 5))).2 o0 ++
            tl)
        · simp [List.take_succ_cons, List.append_assoc]

theorem find0_chunk_r (f : Bool) (o0 tl : Bytes)
    (ho : find0 o0 openComment = o0.length)
    (htl : tl = [] ∨ memEq openComment tl = true) :
    find0 (sepOf f ++ (o0 ++ (sepOf f ++ (indentOf f o0 ++ tl)))) openComment =
      2 + o0.length + (indentOf f o0).length := by
  have := find0_chunk f o0 tl ho htl
  simpa [List.append_assoc] using this

theorem chunk_length (f : Bool) (o0 : Bytes) :
    (sepOf f ++ o0 ++ sepOf f ++ indentOf f o0).length =
      2 + o0.length + (indentOf f o0).length := by
  cases f <;> simp [sepOf] <;> omega

theorem drop_chunk_r (f : Bool) (o0 tl : Bytes) :
    (sepOf f ++ (o0 ++ (sepOf f ++ (indentOf f o0 ++ tl)))).drop
      (2 + o0.length + (indentOf f o0).length) = tl := by
  have h : sepOf f ++ (o0 ++ (sepOf f ++ (indentOf f o0 ++ tl))) =
      (sepOf f ++ o0 ++ sepOf f ++ indentOf f o0) ++ tl := by
    simp [List.append_assoc]
  rw [h, ← chunk_length f o0, List.drop_left]

/-- Core idempotence argument: with a stable, well-behaved interpreter, the
output of a successful run is a fixed point of the fused pipeline. -/
theorem fused_fixpoint (exec : Bytes → Bytes) (hg : goodExec exec) :
    ∀ (n : Nat) (s : Bytes), s.length ≤ n → ∀ o,
      pyexpandFused exec s = some o → pyexpandFused exec o = some o := by
  intro n
  induction n with
  | zero =>
    intro s hs o h
    have hnil : s = [] := by
      cases s with
      | nil => rfl
      | cons c r => simp at hs
    subst hnil
    have h0 : pyexpandFused exec [] = some [] := rfl
    rw [h0] at h
    obtain rfl : [] = o := by simpa using h
    exact h0
  | succ n ih =>
    intro s hs o h
    obtain ⟨p, hp⟩ : ∃ p, p = find0 s pyMarker := ⟨_, rfl⟩
    obtain ⟨e, he⟩ : ∃ e, e = dsFindFrom s endComment (p + 5) := ⟨_, rfl⟩
    obtain ⟨t, ht⟩ : ∃ t, t = dsFindFrom s openComment (e + 2) := ⟨_, rfl⟩
    obtain ⟨body, hbody⟩ : ∃ b, b = (s.take e).drop (p + 5) := ⟨_, rfl⟩
    obtain ⟨k, hk⟩ : ∃ k, k = s.take (e + 2) := ⟨_, rfl⟩
    obtain ⟨rest, hrest⟩ : ∃ r, r = s.drop t := ⟨_, rfl⟩
    rw [pyexpandFused_eq2 exec s p e t body k rest hp he ht hbody hk hrest] at h
    by_cases hpm : p = s.length
    · rw [if_pos hpm] at h
      obtain rfl : s = o := by simpa using h
      rw [pyexpandFused_eq2 exec s p e t body k rest hp he ht hbody hk hrest]
      rw [if_pos hpm]
    · rw [if_neg hpm] at h
      by_cases he2 : e + 2 > s.length
      · rw [if_pos he2] at h
        simp at h
      · rw [if_neg he2] at h
        obtain ⟨o0, htr, h2⟩ := Option.bind_eq_some.mp h
        obtain ⟨tl, htl, h3⟩ := Option.bind_eq_some.mp h2
        have ho : o = k ++ sepOf (transform body).2 ++ o0 ++
            sepOf (transform body).2 ++ indentOf (transform body).2 o0 ++
            tl := by
          simpa using h3.symm
        obtain ⟨fl, hfl⟩ : ∃ f, f = (transform body).2 := ⟨_, rfl⟩
        rw [← hfl] at ho
        obtain ⟨ind, hind⟩ : ∃ i, i = indentOf fl o0 := ⟨_, rfl⟩
        rw [← hind] at ho
        have he' : e = (p + 5) + find0 (s.drop (p + 5)) endComment := by
          rw [he]; rfl
        have ht' : t = (e + 2) + find0 (s.drop (e + 2)) openComment := by
          rw [ht]; rfl
        have hple : p + 5 ≤ s.length := by
          have hne : find0 s pyMarker ≠ s.length := by rw [← hp]; exact hpm
          have hmem := find0_found hne
          rw [← hp] at hmem
          have hlen5 := memEq_length hmem
          rw [pyMarker_length, List.length_drop] at hlen5
          have hpl : p ≤ s.length := by rw [hp]; exact find0_le s pyMarker
          omega
        have hpe : p + 5 ≤ e := by omega
        have hes : e + 2 ≤ s.length := by omega
        have hkl : k.length = e + 2 := by
          rw [hk, List.length_take]
          omega
        have hte : e + 2 ≤ t := by omega
        have hts : t ≤ s.length := by
          have hfl2 := find0_le (s.drop (e + 2)) openComment
          rw [List.length_drop] at hfl2
          omega
        have hrl : rest.length = s.length - t := by rw [hrest]; simp
        have hsplit : s = k ++ s.drop (e + 2) := by
          rw [hk]
          exact (List.take_append_drop (e + 2) s).symm
        have hfk : find0 k pyMarker = p := by
          have h1 : find0 (k ++ s.drop (e + 2)) pyMarker = p := by
            rw [← hsplit, ← hp]
          have h4 := @find0_append_inner k pyMarker
            (s.drop (e + 2)) (by rw [h1, pyMarker_length, hkl]; omega)
          rw [h4, h1]
        have hoR : o = k ++ (sepOf fl ++ (o0 ++ (sepOf fl ++ (ind ++ tl)))) := by
          rw [ho]
          simp [List.append_assoc]
        have hfo : find0 o pyMarker = p := by
          rw [hoR]
          rw [find0_append_stable _ (by rw [hfk, pyMarker_length, hkl]; omega)]
          exact hfk
        have hko2 : k.length ≤ o.length := by rw [hoR]; simp
        have hpo : ¬ p = o.length := by omega
        have hkd : ∀ (b : Bytes), (k ++ b).drop (p + 5) =
            k.drop (p + 5) ++ b := by
          intro b
          rw [List.drop_append_eq_append_drop]
          have h0 : p + 5 - k.length = 0 := by omega
          rw [h0, List.drop_zero]
        have hkdl : (k.drop (p + 5)).length = (e + 2) - (p + 5) := by
          rw [List.length_drop, hkl]
        have hsd : s.drop (p + 5) = k.drop (p + 5) ++ s.drop (e + 2) := by
          conv_lhs => rw [hsplit]
          rw [hkd]
        have h1e : find0 (s.drop (p + 5)) endComment = e - (p + 5) := by omega
        have hfke : find0 (k.drop (p + 5)) endComment = e - (p + 5) := by
          have h4 := @find0_append_inner (k.drop (p + 5))
            endComment (s.drop (e + 2))
            (by rw [← hsd, h1e, endComment_length, hkdl]; omega)
          rw [h4, ← hsd, h1e]
        have hod : o.drop (p + 5) =
            k.drop (p + 5) ++ (sepOf fl ++ (o0 ++ (sepOf fl ++ (ind ++ tl))))
            := by
          conv_lhs => rw [hoR]
          rw [hkd]
        have hfeo : dsFindFrom o endComment (p + 5) = e := by
          simp only [dsFindFrom]
          rw [hod]
          rw [find0_append_stable _
            (by rw [hfke, endComment_length, hkdl]; omega)]
          rw [hfke]
          omega
        have hgo : ¬ e + 2 > o.length := by omega
        have hko : o.take e = s.take e := by
          rw [hoR]
          rw [List.take_append_eq_append_take]
          have h5 : e - k.length = 0 := by omega
          rw [h5, List.take_zero, List.append_nil]
          rw [hk, List.take_take]
          have h6 : min e (e + 2) = e := by omega
          rw [h6]
        have hbodyo : body = (o.take e).drop (p + 5) := by rw [hko, hbody]
        obtain ⟨w, hw, hwss, hwnul⟩ :=
          hg (truncAtNul (transform body).1 ++ ['\n'])
        have hwo : o0 = w := by
          rw [hw] at htr
          have := htr.symm
          simpa using this
        subst hwo
        have htlshape : tl = [] ∨ memEq openComment tl = true := by
          apply fusedHead exec rest tl ?_ htl
          rw [hrest, ht]
          exact restShape s (e + 2) hes
        have hdo : o.drop (e + 2) =
            sepOf fl ++ (o0 ++ (sepOf fl ++ (ind ++ tl))) := by
          conv_lhs => rw [hoR, ← hkl]
          exact List.drop_left k _
        have hfo2 : dsFindFrom o openComment (e + 2) =
            (e + 2) + (2 + o0.length + ind.length) := by
          simp only [dsFindFrom]
          rw [hdo, hind]
          rw [find0_chunk_r fl o0 tl hwss htlshape]
        have hdrop2 : o.drop ((e + 2) + (2 + o0.length + ind.length)) = tl := by
          have hdd : (o.drop (e + 2)).drop (2 + o0.length + ind.length) =
              o.drop ((e + 2) + (2 + o0.length + ind.length)) :=
            List.drop_drop _ _ _
          rw [← hdd, hdo, hind]
          exact drop_chunk_r fl o0 tl
        have hfixtl : pyexpandFused exec tl = some tl := ih rest (by omega) tl htl
        rw [pyexpandFused_eq2 exec o p e (dsFindFrom o openComment (e + 2))
          body (o.take (e + 2)) (o.drop (dsFindFrom o openComment (e + 2)))
          hfo.symm hfeo.symm rfl hbodyo rfl rfl]
        rw [if_neg hpo, if_neg hgo]
        rw [htr]
        simp only [Option.some_bind]
        rw [hfo2, hdrop2, hfixtl]
        simp only [Option.some_bind]
        have hkk : o.take (e + 2) = k := by
          rw [hoR, ← hkl]
          exact List.take_left k _
        rw [hkk, ← hfl, ← hind, ← ho]

/-- With a NUL-free input and a well-behaved interpreter, the assembled output
contains no NUL byte. -/
theorem fused_no_nul (exec : Bytes → Bytes) (hg : goodExec exec) :
    ∀ (n : Nat) (s : Bytes), s.length ≤ n → nulC ∉ s → ∀ o,
      pyexpandFused exec s = some o → nulC ∉ o := by
  intro n
  induction n with
  | zero =>
    intro s hs hnul o h
    have hnil : s = [] := by
      cases s with
      | nil => rfl
      | cons c r => simp at hs
    subst hnil
    have h0 : pyexpandFused exec [] = some [] := rfl
    rw [h0] at h
    obtain rfl : [] = o := by simpa using h
    simp
  | succ n ih =>
    intro s hs hnul o h
    obtain ⟨p, hp⟩ : ∃ p, p = find0 s pyMarker := ⟨_, rfl⟩
    obtain ⟨e, he⟩ : ∃ e, e = dsFindFrom s endComment (p + 5) := ⟨_, rfl⟩
    obtain ⟨t, ht⟩ : ∃ t, t = dsFindFrom s openComment (e + 2) := ⟨_, rfl⟩
    obtain ⟨body, hbody⟩ : ∃ b, b = (s.take e).drop (p + 5) := ⟨_, rfl⟩
    obtain ⟨k, hk⟩ : ∃ k, k = s.take (e + 2) := ⟨_, rfl⟩
    obtain ⟨rest, hrest⟩ : ∃ r, r = s.drop t := ⟨_, rfl⟩
    rw [pyexpandFused_eq2 exec s p e t body k rest hp he ht hbody hk hrest] at h
    by_cases hpm : p = s.length
    · rw [if_pos hpm] at h
      obtain rfl : s = o := by simpa using h
      exact hnul
    · rw [if_neg hpm] at h
      by_cases he2 : e + 2 > s.length
      · rw [if_pos he2] at h
        simp at h
      · rw [if_neg he2] at h
        obtain ⟨o0, htr, h2⟩ := Option.bind_eq_some.mp h
        obtain ⟨tl, htl, h3⟩ := Option.bind_eq_some.mp h2
        have ho : o = k ++ sepOf (transform body).2 ++ o0 ++
            sepOf (transform body).2 ++ indentOf (transform body).2 o0 ++
            tl := by
          simpa using h3.symm
        obtain ⟨w, hw, hwss, hwnul⟩ :=
          hg (truncAtNul (transform body).1 ++ ['\n'])
        have hwo : o0 = w := by
          rw [hw] at htr
          have := htr.symm
          simpa using this
        subst hwo
        have hte : e + 2 ≤ t := by rw [ht, dsFindFrom]; omega
        have hrl : rest.length = s.length - t := by rw [hrest]; simp
        have hnulrest : nulC ∉ rest := by
          intro hr
          rw [hrest] at hr
          exact hnul (List.drop_subset _ _ hr)
        have hnultl : nulC ∉ tl := ih rest (by omega) hnulrest tl htl
        rw [ho]
        intro hmem
        simp only [List.mem_append] at hmem
        have hsep : nulC ∉ sepOf (transform body).2 := by
          cases htf : (transform body).2 <;> simp [sepOf] <;> decide
        rcases hmem with ((((hm1 | hm2) | hm3) | hm4) | hm5) | hm6
        · rw [hk] at hm1
          exact hnul (List.take_subset _ _ hm1)
        · exact hsep hm2
        · exact hwnul hm3
        · exact hsep hm4
        · exact hwnul (List.take_subset _ _ hm5)
        · exact hnultl hm6

/-! ## Characterisation of the single-expression line count -/

theorem nl_lit_eq : lit "\n" = ['\n'] := by decide

theorem memEq_nl_iff (c : Char) (z : Bytes) :
    memEq (lit "\n") (c :: z) = true ↔ c = '\n' := by
  rw [memEq_iff, nl_lit_eq]
  constructor
  · rintro ⟨t, ht⟩
    simpa using congrArg (fun x => x.headI) ht
  · rintro rfl
    exact ⟨z, rfl⟩

theorem linesCountAux_congr :
    ∀ (f g : Nat) (l : Bytes), l.length ≤ f → l.length ≤ g →
      linesCountAux f l = linesCountAux g l := by
  intro f
  induction f with
  | zero =>
    intro g l hf _
    have : l = [] := by
      cases l with
      | nil => rfl
      | cons c r => simp at hf
    subst this
    cases g <;> rfl
  | succ f ih =>
    intro g l hf hg
    cases l with
    | nil => cases g <;> rfl
    | cons c r =>
      cases g with
      | zero => simp at hg
      | succ g =>
        simp only [linesCountAux]
        have hadv : 1 ≤ splitAdvance (c :: r) := by
          simp only [splitAdvance]
          have : 1 ≤ (c :: r).length := by simp
          omega
        have hlen : ((c :: r).drop (splitAdvance (c :: r))).length =
            (c :: r).length - splitAdvance (c :: r) := by simp
        have hcons : (c :: r).length = r.length + 1 := by simp
        rw [ih g _ (by omega) (by omega)]

theorem linesCount_cons (c : Char) (r : Bytes) :
    linesCount (c :: r) =
      1 + linesCount ((c :: r).drop (splitAdvance (c :: r))) := by
  show linesCountAux (c :: r).length (c :: r) = _
  have h1 : (c :: r).length = r.length + 1 := by simp
  rw [h1]
  simp only [linesCountAux]
  have hadv : 1 ≤ splitAdvance (c :: r) := by
    simp only [splitAdvance]
    have : 1 ≤ (c :: r).length := by simp
    omega
  have hlen : ((c :: r).drop (splitAdvance (c :: r))).length =
      (c :: r).length - splitAdvance (c :: r) := by simp
  rw [linesCountAux_congr r.length ((c :: r).drop (splitAdvance (c :: r))).length
    _ (by simp at hlen ⊢; omega) (by omega)]
  rfl

theorem linesCount_eq_zero_iff (l : Bytes) : linesCount l = 0 ↔ l = [] := by
  cases l with
  | nil => simp [linesCount, linesCountAux]
  | cons c r =>
    rw [linesCount_cons]
    simp

theorem find0_nl_ge_iff :
    ∀ l : Bytes, find0 l (lit "\n") + 1 ≥ l.length ↔ '\n' ∉ l.dropLast := by
  intro l
  induction l with
  | nil => simp [find0]
  | cons c rest ih =>
    cases rest with
    | nil =>
      simp only [List.dropLast_single, List.not_mem_nil, not_false_iff,
        iff_true, List.length_cons, List.length_nil]
      omega
    | cons d rest2 =>
      by_cases hc : c = '\n'
      · subst hc
        have hm : memEq (lit "\n") ('\n' :: d :: rest2) = true :=
          (memEq_nl_iff _ _).mpr rfl
        have h0 : find0 ('\n' :: d :: rest2) (lit "\n") = 0 := by
          simp [find0, hm]
        rw [h0]
        simp [List.dropLast_cons₂]
      · have hm : ¬ memEq (lit "\n") (c :: d :: rest2) = true := by
          rw [memEq_nl_iff]
          exact hc
        have h0 : find0 (c :: d :: rest2) (lit "\n") =
            1 + find0 (d :: rest2) (lit "\n") := by
          simp [find0, hm]
        rw [h0]
        rw [List.dropLast_cons₂]
        simp only [List.mem_cons, not_or]
        constructor
        · intro hle
          refine ⟨fun he => hc he.symm, ?_⟩
          apply ih.mp
          simp only [List.length_cons] at hle ⊢
          omega
        · rintro ⟨_, hnm⟩
          have := ih.mpr hnm
          simp only [List.length_cons] at this ⊢
          omega

theorem linesCount_le_one_iff (l : Bytes) :
    linesCount l ≤ 1 ↔ '\n' ∉ l.dropLast := by
  cases l with
  | nil => simp [linesCount, linesCountAux]
  | cons c r =>
    rw [linesCount_cons]
    have h1 : 1 + linesCount ((c :: r).drop (splitAdvance (c :: r))) ≤ 1 ↔
        linesCount ((c :: r).drop (splitAdvance (c :: r))) = 0 := by omega
    rw [h1, linesCount_eq_zero_iff, List.drop_eq_nil_iff]
    have h2 : splitAdvance (c :: r) =
        min (find0 (c :: r) (lit "\n") + 1) (c :: r).length := rfl
    rw [h2]
    have h3 : (c :: r).length ≤ min (find0 (c :: r) (lit "\n") + 1)
        (c :: r).length ↔ find0 (c :: r) (lit "\n") + 1 ≥ (c :: r).length := by
      omega
    rw [h3, find0_nl_ge_iff]

/-! ## Claim theorems -/

theorem returnLit_length : returnLit.length = 6 := by decide

/-- Spec-side definition (section 3): the longest prefix of the DIRECTIVE BODY
consisting entirely of ASCII spaces/tabs.  Used to state claim C2, which the
code refutes: the implementation derives the indent from the trimmed captured
stdout instead. -/
def spec_indent_prefix (body : Bytes) : Bytes :=
  body.takeWhile (fun c => c == ' ' || c == '\t')

/-- Spec-side definition (section 4.2): number of non-empty lines of the body
when split on LF, a trailing CR stripped and empty lines not counted.  Used to
state claim C3, which the code refutes: the loop counts every `Split`
iteration, empty lines included. -/
def spec_nonEmptyLineCount (body : Bytes) : Nat :=
  (((body.splitOn '\n').map stripCR).filter (fun l => !l.isEmpty)).length

/-- C1: the splicer emits the kept ranges in source order, interleaved with
the expansions: `K0` first, then for each directive `i` the bytes
`sep ++ stdout(after trim) ++ sep ++ indent_prefix` followed by `K_i`, where
`sep` is `"\n"` for a multiline directive and `" "` otherwise.  In
particular, the byte sequence between a directive's closing marker (the end
of `K_{i-1}`) and the start of the next kept range is exactly
`sep ++ stdout ++ sep ++ indent_prefix`. -/
theorem C1_splice_structure (K0 : Bytes) (Ks outs : List Bytes)
    (flags : List Bool) (h1 : outs.length = Ks.length)
    (h2 : flags.length = Ks.length) :
    splice (K0 :: Ks) outs flags = K0 ++ specInterleave Ks outs flags :=
  splice_eq_interleave K0 Ks outs flags h1 h2

/-- Witness for C1 at a concrete input. -/
theorem C1_splice_structure_witness :
    splice [lit "A*/", lit "/*B"] [lit "3"] [false] = lit "A*/ 3 /*B" :=
  (C1_splice_structure (lit "A*/") [lit "/*B"] [lit "3"] [false]
    (by decide) (by decide)).trans (by decide)

/-- C2 counterexample: a multiline directive whose body has no leading
whitespace but whose trimmed stdout starts with a space.  The emitted indent
is the whitespace prefix of the stdout (one space), not the whitespace prefix
of the directive body (empty); the first conjunct shows the full tool output
containing that space before the final kept range. -/
theorem C2_counterexample :
    pyexpandTool (fun _ => lit " 7\r\n") (lit "/*.pyreturn 1*/_/*") =
      some (lit "/*.pyreturn 1*/\n 7\n /*") ∧
    indentOf true (lit " 7") ≠ spec_indent_prefix (lit "return 1") := by
  decide

/-- C2 (amended): for every multiline directive the emitted `indent_prefix`
is the longest prefix of the TRIMMED CAPTURED STDOUT consisting entirely of
space/tab bytes; for a single-expression directive it is empty. -/
theorem C2_indent_from_stdout (f : Bool) (o : Bytes) :
    indentOf f o =
      if f then o.takeWhile (fun c => c == ' ' || c == '\t') else [] := by
  cases f with
  | false => simp [indentOf]
  | true => simpa [indentOf] using indentLen_take_eq_takeWhile o

/-- C3 counterexample: the body `"\n\n"` contains no `return` and has zero
non-empty lines (so the claim requires `print(<body>)`), yet the transformer
emits the fixed error program, which differs from `print(<body>)\n`. -/
theorem C3_counterexample :
    isMultiline (lit "\n\n") = false ∧
    spec_nonEmptyLineCount (lit "\n\n") ≤ 1 ∧
    (transform (lit "\n\n")).1 = errorProgram ∧
    errorProgram ≠ lit "print(" ++ lit "\n\n" ++ lit ")\n" := by
  decide

/-- C3 (amended): for a NUL-free body without `return`, the transformer emits
`print(<body>)\n` exactly when the body contains no LF byte before its final
byte — equivalently, when the `Split("\n")` loop performs at most one
iteration.  Empty lines DO count (each `Split` iteration counts one line) and
a trailing CR plays no part in the counting; otherwise the fixed error
program is substituted. -/
theorem C3_single_line_rule (body : Bytes) (h1 : isMultiline body = false)
    (h2 : nulC ∉ body) :
    (transform body).1 = lit "print(" ++ body ++ lit ")\n" ↔
      '\n' ∉ body.dropLast := by
  have htr : transform body =
      if linesCount body ≤ 1 then
        (lit "print(" ++ truncAtNul body ++ lit ")\n", false)
      else (errorProgram, false) := by
    simp [transform, h1]
  rw [truncAtNul_of_not_mem h2] at htr
  constructor
  · intro h
    by_cases hlc : linesCount body ≤ 1
    · exact (linesCount_le_one_iff body).mp hlc
    · rw [htr, if_neg hlc] at h
      simp only at h
      have hlast1 : errorProgram.getLast? = some ')' := by decide
      have hne : lit ")\n" ≠ ([] : Bytes) := by decide
      have hlast2 : (lit "print(" ++ body ++ lit ")\n").getLast? =
          some '\n' := by
        rw [List.getLast?_append_of_ne_nil (lit "print(" ++ body) hne]
        decide
      rw [h, hlast2] at hlast1
      simp at hlast1
  · intro h
    have hlc : linesCount body ≤ 1 := (linesCount_le_one_iff body).mpr h
    rw [htr, if_pos hlc]

/-- Witness for C3 (amended) at a concrete input. -/
theorem C3_single_line_rule_witness :
    (transform (lit "1+2")).1 = lit "print(" ++ lit "1+2" ++ lit ")\n" :=
  (C3_single_line_rule (lit "1+2") (by decide) (by decide)).mpr (by decide)

/-- C4: evaluation at the failing input.  On a file whose opening marker has
no closing marker, the scanner does not stop gracefully: it evaluates
`remaining.Slice(0, end_comment_offset + 2)` with
`end_comment_offset = Size`, violating `DS_ASSERT(to <= Size)` — an abort
with assertions enabled, an out-of-bounds read without — modelled as `none`.
The whole run therefore produces no output file. -/
theorem C4_scanner_abort_eval :
    pyexpandScan (lit "/*.py abc") = none ∧
    pyexpandTool (fun _ => lit "0\r\n") (lit "/*.py abc") = none := by
  decide

/-- C5 counterexample: the closing marker is found but no `/*` follows.  The
claim says the scanner keeps everything from the cursor to the end and emits
no directive (so the file would be left unchanged); the code instead keeps
only up to the closing marker, drops the trailing bytes `XY`, and splices
the expansion. -/
theorem C5_counterexample :
    pyexpandTool (fun _ => lit "3\r\n") (lit "/*.py 1*/XY") =
      some (lit "/*.py 1*/ 3 ") ∧
    lit "/*.py 1*/ 3 " ≠ lit "/*.py 1*/XY" := by
  decide

/-- C5 (amended): when the closing marker is found but no subsequent `/*`
occurs, the scanner emits the kept range `[c, body_end + 2)`, DOES emit the
directive, drops the bytes after `body_end + 2` (the tail kept range is
empty), and stops scanning; the directive's expansion is spliced after the
closing marker and becomes the end of the file. -/
theorem C5_missing_terminator_behavior (s : Bytes) (p e : Nat)
    (hp : p = find0 s pyMarker) (he : e = dsFindFrom s endComment (p + 5))
    (hpm : p ≠ s.length) (he2 : e + 2 ≤ s.length)
    (ht : dsFindFrom s openComment (e + 2) = s.length) :
    pyexpandScan s =
      some ([s.take (e + 2), []], [transform ((s.take e).drop (p + 5))]) := by
  rw [pyexpandScan_eq2 s p e (dsFindFrom s openComment (e + 2))
    ((s.take e).drop (p + 5)) (s.take (e + 2))
    (s.drop (dsFindFrom s openComment (e + 2))) hp he rfl rfl rfl rfl]
  rw [if_neg hpm, if_neg (by omega)]
  rw [ht, List.drop_length]
  rfl

/-- Witness for C5 (amended) at a concrete input. -/
theorem C5_missing_terminator_behavior_witness :
    pyexpandScan (lit "/*.py 1*/XY") =
      some ([lit "/*.py 1*/", []], [transform (lit " 1")]) := by
  have h := C5_missing_terminator_behavior (lit "/*.py 1*/XY") 0 7
    (by decide) (by decide) (by decide) (by decide) (by decide)
  exact h.trans (by decide)

/-- C6: evaluation at the failing inputs.  The trailing CR+LF trim behaves as
claimed on outputs of at least two bytes, but on the empty output and on
one-byte outputs `Slice(Size - 2)` violates `DS_ASSERT(from >= 0)` (debug
abort, out-of-bounds read otherwise) instead of returning the output
unchanged — modelled as `none`. -/
theorem C6_trim_eval :
    trimResult [] = none ∧
    trimResult (lit "\n") = none ∧
    trimResult (lit "3\r\n") = some (lit "3") ∧
    trimResult (lit "3\n") = some (lit "3\n") := by
  decide

/-- C7 counterexample: a NUL byte inside a directive-free file is not
preserved — the final `fprintf("%s", ...)` stops at the first NUL, so the
written file is a strict prefix of the original. -/
theorem C7_counterexample :
    pyexpandTool (fun _ => lit "1\r\n") ['a', nulC, 'b'] = some ['a'] ∧
    (['a'] : Bytes) ≠ ['a', nulC, 'b'] := by
  decide

/-- C7 (amended): for every NUL-free input containing no occurrence of the
opening marker `/*.py`, the tool writes back contents byte-identical to the
input. -/
theorem C7_no_directive_identity (exec : Bytes → Bytes) (s : Bytes)
    (h1 : find0 s pyMarker = s.length) (h2 : nulC ∉ s) :
    pyexpandTool exec s = some s := by
  unfold pyexpandTool pyexpandAssemble
  rw [pyexpandScan_eq s, if_pos h1]
  simp [runPrograms, splice_single, truncAtNul_of_not_mem h2]

/-- Witness for C7 (amended) at a concrete input. -/
theorem C7_no_directive_identity_witness :
    pyexpandTool (fun _ => lit "9\r\n") (lit "hello") = some (lit "hello") :=
  C7_no_directive_identity (fun _ => lit "9\r\n") (lit "hello")
    (by decide) (by decide)

/-- C8 counterexample: a single stable snippet whose captured stdout contains
the two bytes `/*`.  The interpreter is a constant function, so every
snippet's stdout is invariant across runs, yet the second run re-scans the
first run's spliced output, takes the `/*` inside the old expansion as the
directive terminator, and duplicates the expansion text: the file after the
second run differs from the file after the first. -/
theorem C8_counterexample :
    pyexpandTool (fun _ => lit "/*A\r\n") (lit "/*.py 1*/X/*Y") =
      some (lit "/*.py 1*/ /*A /*Y") ∧
    pyexpandTool (fun _ => lit "/*A\r\n") (lit "/*.py 1*/ /*A /*Y") =
      some (lit "/*.py 1*/ /*A /*A /*Y") ∧
    lit "/*.py 1*/ /*A /*Y" ≠ lit "/*.py 1*/ /*A /*A /*Y" := by
  decide

/-- C8 (amended): if every snippet's stdout is invariant across runs (the
interpreter is a fixed function of the program file), every raw output is at
least two bytes (so the CR+LF trim does not trip its assertion), and neither
the input nor any trimmed output contains a NUL byte or the two-byte
sequence `/*`, then running the tool twice in a row yields the same file
bytes after the second run as after the first. -/
theorem C8_idempotence (exec : Bytes → Bytes) (input o : Bytes)
    (hg : goodExec exec) (hin : nulC ∉ input)
    (h1 : pyexpandTool exec input = some o) :
    pyexpandTool exec o = some o := by
  obtain ⟨r, hr, hro⟩ : ∃ r, pyexpandAssemble exec input = some r ∧
      o = truncAtNul r := by
    unfold pyexpandTool at h1
    cases ha : pyexpandAssemble exec input with
    | none => rw [ha] at h1; simp at h1
    | some r =>
      rw [ha] at h1
      refine ⟨r, rfl, ?_⟩
      have := h1.symm
      simpa using this
  have hfu : pyexpandFused exec input = some r := by
    rw [← assemble_eq_fused exec input.length input le_rfl]
    exact hr
  have hrnul : nulC ∉ r :=
    fused_no_nul exec hg input.length input le_rfl hin r hfu
  have hor : o = r := by rw [hro, truncAtNul_of_not_mem hrnul]
  subst hor
  have hfix : pyexpandFused exec o = some o :=
    fused_fixpoint exec hg input.length input le_rfl o hfu
  have hasm : pyexpandAssemble exec o = some o := by
    rw [assemble_eq_fused exec o.length o le_rfl]
    exact hfix
  unfold pyexpandTool
  rw [hasm]
  simp [truncAtNul_of_not_mem hrnul]

/-- Witness for C8 (amended): a concrete interpreter and input whose first
run yields `"z /*.py 1*/ ab /*w"`; the theorem concludes that a second run
on that output reproduces it. -/
theorem C8_idempotence_witness :
    pyexpandTool (fun _ => lit "ab\r\n") (lit "z /*.py 1*/ ab /*w") =
      some (lit "z /*.py 1*/ ab /*w") := by
  have htrim : trimResult (lit "ab\r\n") = some (lit "ab") := by decide
  exact C8_idempotence (fun _ => lit "ab\r\n") (lit "z /*.py 1*/q/*w")
    (lit "z /*.py 1*/ ab /*w")
    (fun _ => ⟨lit "ab", htrim, by decide, by decide⟩)
    (by decide) (by decide)

/-- C9: the transformer classifies a body as multi-statement precisely when
it contains the literal substring `return` somewhere. -/
theorem C9_return_classification (body : Bytes) :
    isMultiline body = true ↔ ∃ pre post, body = pre ++ returnLit ++ post := by
  constructor
  · intro h
    have hne : find0 body returnLit ≠ body.length := by
      simpa [isMultiline, bne_iff_ne] using h
    have hm := find0_found hne
    obtain ⟨t, hdt⟩ := (memEq_iff _ _).mp hm
    refine ⟨body.take (find0 body returnLit), t, ?_⟩
    conv_lhs => rw [← List.take_append_drop (find0 body returnLit) body]
    rw [hdt]
    simp [List.append_assoc]
  · rintro ⟨pre, post, rfl⟩
    have hdrop : (pre ++ returnLit ++ post).drop pre.length =
        returnLit ++ post := by
      rw [List.append_assoc, List.drop_left]
    have hm : memEq returnLit ((pre ++ returnLit ++ post).drop pre.length) =
        true := by
      rw [hdrop, memEq_iff]
      exact ⟨post, rfl⟩
    have hle := find0_le_of_memEq hm
    have hlen : (pre ++ returnLit ++ post).length =
        pre.length + 6 + post.length := by
      simp [returnLit_length]
      omega
    simp only [isMultiline, bne_iff_ne, ne_eq]
    omega

/-- C10: the bytes written to the output file are the assembled splicer
result truncated at its first NUL (the final write formats the buffer with
`fprintf("%s", ...)`); likewise the subprocess accumulator appends every
captured chunk only up to the chunk's first NUL (`Addf("%s", chunk)`).
Byte preservation therefore holds as stated only NUL-free: when the
assembled result has no NUL, the written file equals it byte for byte. -/
theorem C10_nul_truncation :
    (∀ (exec : Bytes → Bytes) (s r : Bytes),
      pyexpandAssemble exec s = some r →
        pyexpandTool exec s = some (truncAtNul r) ∧
        (nulC ∉ r → pyexpandTool exec s = some r)) ∧
    (∀ chunks : List Bytes,
      accumulateChunks chunks = (chunks.map truncAtNul).flatten) := by
  constructor
  · intro exec s r h
    constructor
    · unfold pyexpandTool
      rw [h]
      rfl
    · intro hn
      unfold pyexpandTool
      rw [h]
      simp [truncAtNul_of_not_mem hn]
  · intro chunks
    have hgen : ∀ (cs : List Bytes) (acc : Bytes),
        cs.foldl (fun a c => a ++ truncAtNul c) acc =
          acc ++ (cs.map truncAtNul).flatten := by
      intro cs
      induction cs with
      | nil => intro acc; simp
      | cons c cs ih =>
        intro acc
        simp [List.foldl_cons, ih, List.append_assoc]
    simpa using hgen chunks []

/-- Witness for C10 at concrete inputs. -/
theorem C10_nul_truncation_witness :
    pyexpandTool (fun _ => lit "9\r\n") (lit "ab") = some (lit "ab") ∧
    accumulateChunks [lit "x"] = ([lit "x"].map truncAtNul).flatten :=
  ⟨(C10_nul_truncation.1 (fun _ => lit "9\r\n") (lit "ab") (lit "ab")
      (by decide)).2 (by decide),
    C10_nul_truncation.2 [lit "x"]⟩
